import Mathlib

set_option maxHeartbeats 1000000
set_option maxRecDepth 100000

/-!
Shallow embedding of the huffpuff encoder (src/huffpuff.c): Huffman tree
construction over a 256-symbol byte alphabet, code generation, string
reading with escape handling, MSB-first bit packing, and node-table
serialization, together with theorems about these definitions.

Bytes and machine ints are modelled as Nat (the C code only ever stores
byte values 0..255 in chars, and code/length values stay far below any
int overflow for the alphabet sizes reachable from main).
-/

/-- A Huffman tree as handled by huffman_build_tree: a leaf carries
(symbol, weight); an interior node carries its stored weight.  In the C
struct an interior node is marked by symbol == -1; here by the
constructor. -/
inductive HTree where
  | leaf (symbol weight : Nat)
  | node (weight : Nat) (left right : HTree)
deriving DecidableEq, Repr

/-- A Huffman tree after huffman_generate_codes has filled in the
code.length and code.code fields of every node. -/
inductive CTree where
  | leaf (symbol weight length code : Nat)
  | node (weight length code : Nat) (left right : CTree)
deriving DecidableEq, Repr

/-- The stored weight field of a node (leaf or interior). -/
def storedW : HTree → Nat
  | .leaf _ w => w
  | .node w _ _ => w

/-- huffman_generate_codes: assigns (length, code) to every node; the left
child of a node with code c gets code c<<1 and the right child (c<<1)|1,
both with length+1 (the C mutates the nodes; here we return the annotated
tree). -/
def huffman_generate_codes : HTree → Nat → Nat → CTree
  | .leaf s w, len, code => .leaf s w len code
  | .node w l r, len, code =>
      .node w len code (huffman_generate_codes l (len + 1) (2 * code))
        (huffman_generate_codes r (len + 1) (2 * code + 1))

/-- One bubble pass of at most n adjacent comparisons, as the inner k-loop
of huffman_build_tree: if nodes[k].weight < nodes[k+1].weight they are
swapped, so larger weights move to the front. -/
def bpassN : Nat → List HTree → List HTree
  | n + 1, a :: b :: l =>
      if storedW a < storedW b then b :: bpassN n (a :: l) else a :: bpassN n (b :: l)
  | _, l => l

/-- The j-loop of the bubble sort in huffman_build_tree: passes of j, j-1,
..., 1 comparisons. -/
def sortLoop : Nat → List HTree → List HTree
  | 0, l => l
  | j + 1, l => sortLoop j (bpassN (j + 1) l)

/-- The complete bubble sort performed before each merge (descending by
stored weight). -/
def csort (l : List HTree) : List HTree := sortLoop (l.length - 1) l

/-- The merge step of huffman_build_tree: n1 = nodes[i] (last, smallest),
n2 = nodes[i-1]; they are replaced by a node of weight n1.weight+n2.weight
with left child n1 and right child n2. -/
def mergeLastTwo (l : List HTree) : List HTree :=
  match l.reverse with
  | n1 :: n2 :: rest => (HTree.node (storedW n1 + storedW n2) n1 n2 :: rest).reverse
  | _ => l

/-- The outer i-loop of huffman_build_tree: count-1 sort-and-merge
iterations. -/
def buildLoop : Nat → List HTree → List HTree
  | 0, l => l
  | i + 1, l => buildLoop i (mergeLastTwo (csort l))

/-- Root remaining after the merge loop (nodes[0] in the C). -/
def buildRes (l : List HTree) : HTree :=
  (buildLoop (l.length - 1) l).headD (HTree.leaf 0 0)

/-- huffman_build_tree: returns null on an empty node array, otherwise the
root of the merged tree with codes generated from (length, code) = (0,0). -/
def huffman_build_tree : List HTree → Option CTree
  | [] => none
  | l => some (huffman_generate_codes (buildRes l) 0 0)

/-- freq[c]++ on the 256-entry frequency array. -/
def bump (freq : List Nat) (c : Nat) : List Nat := freq.set c (freq.getD c 0 + 1)

/-- The read loop of read_strings on a byte list: split on 0x0A, drop a
backslash immediately followed by 0x0A (line escape, string not
terminated), keep any other backslash literally, count the frequency of
every stored byte, and keep only non-empty strings, in input order. -/
def scan : List Nat → List Nat → List Nat → List (List Nat) × List Nat
  | [], acc, freq => (if acc = [] then [] else [acc], freq)
  | 10 :: rest, acc, freq =>
      let r := scan rest [] freq
      (if acc = [] then r.1 else acc :: r.1, r.2)
  | 92 :: 10 :: rest, acc, freq => scan rest acc freq
  | c :: rest, acc, freq => scan rest (acc ++ [c]) (bump freq c)

/-- read_strings: returns (string list, frequency table). -/
def read_strings (input : List Nat) : List (List Nat) × List Nat :=
  scan input [] (List.replicate 256 0)

/-- Modelled from the spec sentences that describe the charmap as applied
to every input byte before frequency counting and before storing; this is
the comparison definition for the refinement claim about read_strings, not
a translation of the C (read_strings takes no charmap). -/
def scanMapped (cm : Nat → Nat) : List Nat → List Nat → List Nat → List (List Nat) × List Nat
  | [], acc, freq => (if acc = [] then [] else [acc], freq)
  | 10 :: rest, acc, freq =>
      let r := scanMapped cm rest [] freq
      (if acc = [] then r.1 else acc :: r.1, r.2)
  | 92 :: 10 :: rest, acc, freq => scanMapped cm rest acc freq
  | c :: rest, acc, freq => scanMapped cm rest (acc ++ [cm c]) (bump freq (cm c))

/-- Spec-side read_strings with the charmap applied before counting and
storing (see scanMapped). -/
def read_strings_spec (cm : Nat → Nat) (input : List Nat) : List (List Nat) × List Nat :=
  scanMapped cm input [] (List.replicate 256 0)

/-- The leaf-creation loop of main: one leaf per symbol with frequency
greater than 0, in symbol order. -/
def leaf_nodes (freq : List Nat) : List HTree :=
  (List.range 256).filterMap fun i =>
    if 0 < freq.getD i 0 then some (HTree.leaf i (freq.getD i 0)) else none

/-- Looks up the (length, code) pair of the leaf for symbol c in the
annotated tree.  In main this is the code_nodes array: code_nodes[c]
points at the unique leaf with symbol c, whose code fields
huffman_generate_codes has filled in. -/
def findLeaf (c : Nat) : CTree → Option (Nat × Nat)
  | .leaf s _ len code => if s = c then some (len, code) else none
  | .node _ _ _ l r =>
      match findLeaf c l with
      | some p => some p
      | none => findLeaf c r

/-- The code table passed to encode_strings, i.e. the code_nodes array of
main restricted to its (length, code) content. -/
def codeOf : Option CTree → Nat → Option (Nat × Nat)
  | none, _ => none
  | some t, c => findLeaf c t

/-- The length-bit code emitted most-significant-bit first, as in the
inner loop of encode_strings (for i = length-1 down to 0: (code >> i) & 1). -/
def codeBits (len code : Nat) : List Bool :=
  (List.range len).reverse.map fun i => code.testBit i

/-- Bits contributed by one character: the bits of its Huffman code.  The
none case is unreachable from the pipeline (every character of a stored
string has nonzero frequency, hence a leaf). -/
def symBits (codes : Nat → Option (Nat × Nat)) (c : Nat) : List Bool :=
  match codes c with
  | some p => codeBits p.1 p.2
  | none => []

/-- All code bits of one string; the while (*p) loop reads the stored
NUL-terminated text, so it stops at the first 0 byte. -/
def stringBits (codes : Nat → Option (Nat × Nat)) (text : List Nat) : List Bool :=
  ((text.takeWhile fun c => c != 0).flatMap (symBits codes))

/-- The bit-packing loop of encode_strings: enc is the byte accumulator
(enc |= bit << bitnum), bitnum counts 7 down to 0, and a byte is flushed
when bit 0 has been written.  Returns (flushed bytes, final enc, final
bitnum).  Note enc is OR-ed, exactly as in the C. -/
def packBitsLoop : List Bool → Nat → Nat → List Nat × Nat × Nat
  | [], enc, bitnum => ([], enc, bitnum)
  | b :: bits, enc, bitnum =>
      let enc2 := enc ||| (if b then 2 ^ bitnum else 0)
      if bitnum = 0 then
        let r := packBitsLoop bits 0 7
        (enc2 :: r.1, r.2)
      else
        packBitsLoop bits enc2 (bitnum - 1)

/-- Encoding of one string starting from accumulator value enc0: pack all
code bits, then flush the partial byte if bitnum /= 7.  Returns the packed
bytes (huff_data) and the value of enc afterwards — the C declares enc
outside the string loop and never resets it after the final flush, so the
value is carried into the next string. -/
def encodeOne (codes : Nat → Option (Nat × Nat)) (text : List Nat) (enc0 : Nat) :
    List Nat × Nat :=
  let r := packBitsLoop (stringBits codes text) enc0 7
  if r.2.2 ≠ 7 then (r.1 ++ [r.2.1], r.2.1) else (r.1, r.2.1)

/-- encode_strings: encodes each string of the list in order, threading
the enc accumulator between strings as the C does (enc=0 only initially). -/
def encode_strings (codes : Nat → Option (Nat × Nat)) :
    List (List Nat) → Nat → List (List Nat)
  | [], _ => []
  | t :: ts, enc =>
      let r := encodeOne codes t enc
      r.1 :: encode_strings codes ts r.2

/-- Greedy decoding step from the spec: walk left on 0, right on 1, emit
the symbol at a leaf, return the unconsumed bits. -/
def decodeSym : CTree → List Bool → Option (Nat × List Bool)
  | .leaf s _ _ _, bits => some (s, bits)
  | .node _ _ _ _ _, [] => none
  | .node _ _ _ l _, false :: bits => decodeSym l bits
  | .node _ _ _ _ r, true :: bits => decodeSym r bits

/-- Greedy decoding of n symbols, restarting at the root after each leaf. -/
def decodeN (root : CTree) : Nat → List Bool → Option (List Nat)
  | 0, _ => some []
  | n + 1, bits =>
      match decodeSym root bits with
      | none => none
      | some (s, rest) =>
          match decodeN root n rest with
          | none => none
          | some ss => some (s :: ss)

/-- The bits of a byte list, each byte most-significant-bit first. -/
def bitsOfBytes (bs : List Nat) : List Bool := bs.flatMap fun b => codeBits 8 b

/-- Upper-case hex digit. -/
def hexDigit (n : Nat) : Char :=
  if n < 10 then Char.ofNat (48 + n) else Char.ofNat (55 + n)

/-- Hex representation without leading zeros (at least one digit). -/
def hexStr (n : Nat) : String :=
  if _h : n < 16 then String.mk [hexDigit n]
  else hexStr (n / 16) ++ String.mk [hexDigit (n % 16)]
termination_by n
decreasing_by exact Nat.div_lt_self (by omega) (by omega)

/-- printf %.2X: hex, zero-padded to at least two digits. -/
def hex2 (n : Nat) : String := if n < 16 then "0" ++ hexStr n else hexStr n

/-- Stored code.length field of a node. -/
def lenOfNode : CTree → Nat
  | .leaf _ _ len _ => len
  | .node _ len _ _ _ => len

/-- Stored code.code field of a node. -/
def codeOfNode : CTree → Nat
  | .leaf _ _ _ c => c
  | .node _ _ c _ _ => c

/-- Node size, used as a termination measure for queue traversals. -/
def csize : CTree → Nat
  | .leaf _ _ _ _ => 1
  | .node _ _ _ l r => 1 + csize l + csize r

/-- Children pushed on the work queue for an interior node. -/
def childrenC : CTree → List CTree
  | .leaf _ _ _ _ => []
  | .node _ _ _ l r => [l, r]

/-- Total size of a work queue. -/
def qsize (q : List (CTree × Bool)) : Nat := (q.map fun e => csize e.1).sum

/-- Children of all queue entries, in order, marked as non-root. -/
def cq (q : List (CTree × Bool)) : List (CTree × Bool) :=
  q.flatMap fun e => (childrenC e.1).map fun t => (t, false)

/-- The record body printed by write_huffman_codes for one node: a leaf is
.db $00, $SS with SS the remapped symbol; an interior node prints the two
child labels computed from its own (code, length) by the shift rule, with
+1 on the second offset. -/
def bodyC (cm : Nat → Nat) : CTree → String
  | .leaf s _ _ _ => ".db $00, $" ++ hex2 (cm s) ++ "\n"
  | .node _ len code _ _ =>
      ".db @@node_" ++ Nat.repr (2 * code) ++ "_" ++ Nat.repr (len + 1) ++
        "-$, @@node_" ++ Nat.repr (2 * code + 1) ++ "_" ++ Nat.repr (len + 1) ++ "-$+1\n"

/-- One full output line for a queue entry: label (except for the root)
followed by the record body. -/
def lineC (cm : Nat → Nat) (e : CTree × Bool) : String :=
  (if e.2 then ""
   else "@@node_" ++ Nat.repr (codeOfNode e.1) ++ "_" ++ Nat.repr (lenOfNode e.1) ++ ": ")
  ++ bodyC cm e.1

/-- The while (current) loop of write_huffman_codes: pop the head, print
its line, and append the children of an interior node at the tail. -/
def whcLoop (cm : Nat → Nat) : List (CTree × Bool) → List String
  | [] => []
  | e :: rest => lineC cm e :: whcLoop cm (rest ++ (childrenC e.1).map fun t => (t, false))
termination_by q => qsize q
decreasing_by
  cases h : e.1 <;>
    simp [qsize, childrenC, csize, h, List.map_append, List.sum_append] <;> omega

/-- write_huffman_codes: nothing for a null root, otherwise the queue loop
started with the (label-less) root. -/
def write_huffman_codes (cm : Nat → Nat) : Option CTree → List String
  | none => []
  | some root => whcLoop cm [(root, true)]

/-- Record body as the spec words it: a leaf is the zero marker byte then
the remapped symbol; an interior record holds the labels of its two
children (each label derived from that child's own (code, length) pair)
with the +1 adjustment on the second pointer. -/
def specBody (cm : Nat → Nat) : CTree → String
  | .leaf s _ _ _ => ".db $00, $" ++ hex2 (cm s) ++ "\n"
  | .node _ _ _ l r =>
      ".db @@node_" ++ Nat.repr (codeOfNode l) ++ "_" ++ Nat.repr (lenOfNode l) ++
        "-$, @@node_" ++ Nat.repr (codeOfNode r) ++ "_" ++ Nat.repr (lenOfNode r) ++ "-$+1\n"

/-- Spec-side line for a node: its label (absent on the root) then its
record. -/
def specLine (cm : Nat → Nat) (e : CTree × Bool) : String :=
  (if e.2 then ""
   else "@@node_" ++ Nat.repr (codeOfNode e.1) ++ "_" ++ Nat.repr (lenOfNode e.1) ++ ": ")
  ++ specBody cm e.1

/-- Breadth-first (level-order) emission: all records of the current level,
then the levels below. -/
def bfsLines (cm : Nat → Nat) : List (CTree × Bool) → List String
  | [] => []
  | e :: es => (e :: es).map (specLine cm) ++ bfsLines cm (cq (e :: es))
termination_by q => qsize q
decreasing_by
  have h1 : ∀ l : List (CTree × Bool), qsize (cq l) + l.length = qsize l := by
    intro l
    induction l with
    | nil => simp [qsize, cq]
    | cons x xs ih =>
        cases h : x.1 <;>
          simp [qsize, cq, childrenC, csize, h, List.flatMap_cons, List.map_append,
            List.sum_append, List.map_cons, List.sum_cons, List.map_map] at ih ⊢ <;>
          omega
  have h2 : ∀ (x : CTree × Bool) (l : List (CTree × Bool)),
      qsize (cq (x :: l)) < qsize (x :: l) := by
    intro x l
    have h3 := h1 (x :: l)
    simp only [List.length_cons] at h3
    omega
  exact h2 _ _

/-- Weighted-depth list of a tree: one (weight, depth) pair per leaf, in
left-to-right order. -/
def dl : HTree → List (Nat × Nat)
  | .leaf _ w => [(w, 0)]
  | .node _ l r => (dl l ++ dl r).map fun p => (p.1, p.2 + 1)

/-- Cost of a weighted-depth list: sum of weight * depth. -/
def vcost (v : List (Nat × Nat)) : Nat := (v.map fun p => p.1 * p.2).sum

/-- Largest depth occurring in a weighted-depth list. -/
def maxD (v : List (Nat × Nat)) : Nat := (v.map Prod.snd).foldr max 0

/-- Scaled Kraft sum: sum of 2^(D - depth). -/
def kraftN (D : Nat) (v : List (Nat × Nat)) : Nat := (v.map fun p => 2 ^ (D - p.2)).sum

/-- Weighted external path length computed from the stored node weights
(equal to vcost of dl whenever the stored weights are consistent). -/
def sCost : HTree → Nat
  | .leaf _ _ => 0
  | .node _ l r => sCost l + sCost r + storedW l + storedW r

/-- Sum of sCost over a working list of trees. -/
def sumSCost (L : List HTree) : Nat := (L.map sCost).sum

/-- Stored weights are consistent: every interior node's weight is the sum
of its children's stored weights (true of every tree the pipeline builds). -/
def wfw : HTree → Prop
  | .leaf _ _ => True
  | .node w l r => w = storedW l + storedW r ∧ wfw l ∧ wfw r

/-- The multiset (as a list) of leaf weights of a tree. -/
def leafWeights (t : HTree) : List Nat := (dl t).map Prod.fst

/-- The multiset of leaf weights of a tree. -/
def leafMS (t : HTree) : Multiset Nat := (leafWeights t : Multiset Nat)

/-- All leaves of an annotated tree with their (symbol, weight, length,
code) fields, in left-to-right order. -/
def leafData : CTree → List (Nat × Nat × Nat × Nat)
  | .leaf s w len c => [(s, w, len, c)]
  | .node _ _ _ l r => leafData l ++ leafData r

/-- Total weighted code length of the annotated tree: sum over leaves of
weight * code length. -/
def wcl (t : CTree) : Nat := ((leafData t).map fun e => e.2.1 * e.2.2.1).sum

/-- Bit strings of all leaf codes, MSB first, in leaf order. -/
def leafBits (t : CTree) : List (List Bool) :=
  (leafData t).map fun e => codeBits e.2.2.1 e.2.2.2

/-- Root-to-leaf paths of a tree, left = false, right = true, in leaf
order. -/
def leafPaths : HTree → List (List Bool)
  | .leaf _ _ => [[]]
  | .node _ l r => (leafPaths l).map (false :: ·) ++ (leafPaths r).map (true :: ·)

/-- The child-code discipline of huffman_generate_codes: below a node with
(length, code), the left child stores (length+1, 2*code) and the right
child (length+1, 2*code+1). -/
def childCodesOK : CTree → Prop
  | .leaf _ _ _ _ => True
  | .node _ len code l r =>
      lenOfNode l = len + 1 ∧ codeOfNode l = 2 * code ∧
      lenOfNode r = len + 1 ∧ codeOfNode r = 2 * code + 1 ∧
      childCodesOK l ∧ childCodesOK r

/-- Boolean bit-string prefix test. -/
def listPre : List Bool → List Bool → Bool
  | [], _ => true
  | _ :: _, [] => false
  | a :: xs, b :: ys => (a == b) && listPre xs ys

/-! Theorems.  General lemmas come first, the claim theorems build on
them. -/

theorem scanMapped_id (input acc freq : List Nat) :
    scanMapped (fun b => b) input acc freq = scan input acc freq := by
  induction input, acc, freq using scan.induct with
  | case1 acc freq => rfl
  | case2 rest acc freq ih => simp only [scan, scanMapped, ih]
  | case3 rest acc freq ih => simp only [scan, scanMapped, ih]
  | case4 c rest acc freq h1 h2 ih =>
      conv_lhs => rw [scanMapped.eq_def]
      conv_rhs => rw [scan.eq_def]
      split <;> simp_all

theorem takeWhile_append_zero (pre suf : List Nat) (h : (0 : Nat) ∉ pre) :
    (pre ++ 0 :: suf).takeWhile (fun c => c != 0) = pre.takeWhile (fun c => c != 0) := by
  induction pre with
  | nil => simp [List.takeWhile]
  | cons a l ih =>
      have ha : a ≠ 0 := fun e => h (by simp [e])
      simp only [List.cons_append, List.takeWhile_cons]
      have hb : (a != 0) = true := by simpa using ha
      rw [hb]
      simp only [if_true]
      rw [ih (fun e => h (List.mem_cons_of_mem _ e))]

/-- C7: within a string, a backslash immediately followed by the 0x0A
delimiter drops both bytes, does not terminate the string and counts
neither byte; a backslash not followed by the delimiter is kept literally
(and counted) with the next byte processed normally; the input
A\<LF>B<LF> yields the single string "AB". -/
theorem escape_handling :
    (∀ rest acc freq, scan (92 :: 10 :: rest) acc freq = scan rest acc freq) ∧
    (∀ d rest acc freq, d ≠ 10 →
        scan (92 :: d :: rest) acc freq = scan (d :: rest) (acc ++ [92]) (bump freq 92)) ∧
    (read_strings [65, 92, 10, 66, 10]).1 = [[65, 66]] := by
  refine ⟨fun rest acc freq => rfl, fun d rest acc freq hd => ?_, by decide⟩
  conv_lhs => rw [scan.eq_def]
  split <;> simp_all

theorem escape_handling_witness :
    scan (92 :: 11 :: []) [] (List.replicate 256 0) =
      scan (11 :: []) ([] ++ [92]) (bump (List.replicate 256 0) 92) :=
  escape_handling.2.1 11 [] [] (List.replicate 256 0) (by decide)

/-- C8: huffman_build_tree returns null on zero leaves (and
write_huffman_codes emits no records for a null root); on one leaf it
performs no merges and returns the leaf itself as root, with assigned code
length 0. -/
theorem degenerate_tree_cases :
    huffman_build_tree [] = none ∧
    (∀ s w, huffman_build_tree [HTree.leaf s w] = some (CTree.leaf s w 0 0)) ∧
    (∀ cm, write_huffman_codes cm none = []) :=
  ⟨rfl, fun _ _ => rfl, fun _ => rfl⟩

/-- C1 fails on the code: for the input AAABAAA\nAB\n the second string is
stored as [65,66] ("AB") but packs to the single byte 238 (0xEE), because
encode_strings never resets the bit accumulator enc after flushing the
first string's partial final byte; greedily decoding that byte with the
same tree yields [65,65] ("AA"), not the stored bytes.  This theorem
evaluates the embedded code at that failing input. -/
theorem roundtrip_failure :
    (read_strings [65,65,65,66,65,65,65,10,65,66,10]).1 =
      [[65,65,65,66,65,65,65],[65,66]] ∧
    encode_strings
      (codeOf (huffman_build_tree
        (leaf_nodes (read_strings [65,65,65,66,65,65,65,10,65,66,10]).2)))
      (read_strings [65,65,65,66,65,65,65,10,65,66,10]).1 0 = [[238],[238]] ∧
    (huffman_build_tree
        (leaf_nodes (read_strings [65,65,65,66,65,65,65,10,65,66,10]).2)).map
      (fun r => decodeN r 2 (bitsOfBytes [238])) = some (some [65,65]) ∧
    ([65,65] : List Nat) ≠ [65,66] := by
  decide

/-- C3 fails on the code: for the input AAABAAA\nAB\n the second string
has 2 code bits, so its single packed byte should have its 6 unused
low-order bits zero; the code instead produces 238 (0xEE), whose low 6
bits are 46, because enc still holds the previous string's partial byte.
This theorem evaluates the embedded code at that failing input. -/
theorem padding_failure :
    (stringBits
      (codeOf (huffman_build_tree
        (leaf_nodes (read_strings [65,65,65,66,65,65,65,10,65,66,10]).2)))
      [65,66]).length = 2 ∧
    encode_strings
      (codeOf (huffman_build_tree
        (leaf_nodes (read_strings [65,65,65,66,65,65,65,10,65,66,10]).2)))
      (read_strings [65,65,65,66,65,65,65,10,65,66,10]).1 0 = [[238],[238]] ∧
    238 % 2 ^ 6 ≠ 0 := by
  decide

/-- C10: a 0x00 byte inside a string is stored and counted by
read_strings (so symbol 0 gets a leaf and a code), but encode_strings
stops at the first 0x00 of the NUL-terminated stored text, silently
omitting it and everything after it; concretely for input [65,0,66,10]
the string [65,0,66] packs exactly as [65] would. -/
theorem nul_byte_truncation :
    (∀ codes pre suf enc, (0 : Nat) ∉ pre →
        encodeOne codes (pre ++ 0 :: suf) enc = encodeOne codes pre enc) ∧
    (read_strings [65,0,66,10]).1 = [[65,0,66]] ∧
    (read_strings [65,0,66,10]).2.getD 0 0 = 1 ∧
    codeOf (huffman_build_tree (leaf_nodes (read_strings [65,0,66,10]).2)) 0 =
      some (1, 0) ∧
    encode_strings (codeOf (huffman_build_tree (leaf_nodes (read_strings [65,0,66,10]).2)))
      (read_strings [65,0,66,10]).1 0 =
      encode_strings (codeOf (huffman_build_tree (leaf_nodes (read_strings [65,0,66,10]).2)))
        [[65]] 0 := by
  refine ⟨fun codes pre suf enc h => ?_, by decide, by decide, by decide, by decide⟩
  unfold encodeOne stringBits
  rw [takeWhile_append_zero pre suf h]

theorem nul_byte_truncation_witness :
    encodeOne (fun _ => some (1, 0)) ([65] ++ 0 :: [66]) 0 =
      encodeOne (fun _ => some (1, 0)) [65] 0 :=
  nul_byte_truncation.1 (fun _ => some (1, 0)) [65] [66] 0 (by decide)

/-- C2 as stated is false: read_strings applies no charmap at all (it
stores and counts raw bytes); with the charmap b+1 and input [65,10] the
stored string is [65] and slot 66 stays 0, while the claim demands [66]
and slot 66 = 1. -/
theorem read_strings_charmap_counterexample :
    ¬ (∀ (cm : Nat → Nat) (input : List Nat),
        read_strings input = read_strings_spec cm input) := by
  intro h
  exact absurd (h (fun b => b + 1) [65, 10]) (by decide)

/-- C2 amended: read_strings stores each completed string's raw bytes and
increments the frequency slot of the raw byte (it coincides with the
spec-side reader only under the identity charmap); the charmap is applied
later, by write_huffman_codes, to the symbol byte of each leaf record. -/
theorem charmap_applied_at_table_output :
    (∀ input, read_strings input = read_strings_spec (fun b => b) input) ∧
    (∀ (cm : Nat → Nat) (s w len code : Nat),
        write_huffman_codes cm (some (CTree.leaf s w len code)) =
          [".db $00, $" ++ hex2 (cm s) ++ "\n"]) := by
  constructor
  · intro input
    unfold read_strings read_strings_spec
    rw [scanMapped_id]
  · intro cm s w len code
    simp [write_huffman_codes, whcLoop, lineC, bodyC, childrenC]

theorem codeBits_succ_eq (n c : Nat) :
    codeBits (n + 1) c = codeBits n (c / 2) ++ [decide (c % 2 = 1)] := by
  unfold codeBits
  rw [List.range_succ_eq_map, List.reverse_cons, List.map_append, List.map_reverse,
    List.map_map]
  congr 1
  · rw [← List.map_reverse]
    apply List.map_congr_left
    intro i _
    show (c).testBit (i + 1) = (c / 2).testBit i
    exact Nat.testBit_succ c i
  · simp [Nat.testBit_zero]

theorem codeBits_even (len code : Nat) :
    codeBits (len + 1) (2 * code) = codeBits len code ++ [false] := by
  rw [codeBits_succ_eq]
  have h1 : 2 * code / 2 = code := by omega
  have h2 : 2 * code % 2 = 0 := by omega
  rw [h1, h2]
  simp

theorem codeBits_odd (len code : Nat) :
    codeBits (len + 1) (2 * code + 1) = codeBits len code ++ [true] := by
  rw [codeBits_succ_eq]
  have h1 : (2 * code + 1) / 2 = code := by omega
  have h2 : (2 * code + 1) % 2 = 1 := by omega
  rw [h1, h2]
  simp

theorem lenOfNode_gen (t : HTree) (len code : Nat) :
    lenOfNode (huffman_generate_codes t len code) = len := by
  cases t <;> rfl

theorem codeOfNode_gen (t : HTree) (len code : Nat) :
    codeOfNode (huffman_generate_codes t len code) = code := by
  cases t <;> rfl

theorem childCodesOK_gen (t : HTree) : ∀ len code,
    childCodesOK (huffman_generate_codes t len code) := by
  induction t with
  | leaf s w => intro len code; trivial
  | node w l r ihl ihr =>
      intro len code
      refine ⟨lenOfNode_gen l _ _, codeOfNode_gen l _ _, lenOfNode_gen r _ _,
        codeOfNode_gen r _ _, ihl _ _, ihr _ _⟩

theorem leafData_gen_node (w len code : Nat) (l r : HTree) :
    leafData (huffman_generate_codes (HTree.node w l r) len code) =
      leafData (huffman_generate_codes l (len + 1) (2 * code)) ++
        leafData (huffman_generate_codes r (len + 1) (2 * code + 1)) := rfl

theorem leafBits_gen (t : HTree) : ∀ len code,
    leafBits (huffman_generate_codes t len code) =
      (leafPaths t).map (fun p => codeBits len code ++ p) := by
  induction t with
  | leaf s w => intro len code; simp [leafBits, leafData, huffman_generate_codes, leafPaths]
  | node w l r ihl ihr =>
      intro len code
      show ((leafData (huffman_generate_codes l (len + 1) (2 * code)) ++
        leafData (huffman_generate_codes r (len + 1) (2 * code + 1))).map _) = _
      rw [List.map_append]
      have hl := ihl (len + 1) (2 * code)
      have hr := ihr (len + 1) (2 * code + 1)
      unfold leafBits at hl hr
      rw [hl, hr, codeBits_even, codeBits_odd]
      simp [leafPaths, List.map_map, Function.comp_def]

theorem listPre_cons (b : Bool) (p q : List Bool) :
    listPre (b :: p) (b :: q) = listPre p q := by
  simp [listPre]

theorem listPre_cons_ne (p q : List Bool) :
    listPre (false :: p) (true :: q) = false ∧ listPre (true :: p) (false :: q) = false := by
  constructor <;> simp [listPre]

theorem leafPaths_pairwise (t : HTree) :
    (leafPaths t).Pairwise (fun a b => listPre a b = false ∧ listPre b a = false) := by
  induction t with
  | leaf s w => simp [leafPaths]
  | node w l r ihl ihr =>
      unfold leafPaths
      rw [List.pairwise_append]
      refine ⟨?_, ?_, ?_⟩
      · rw [List.pairwise_map]
        exact ihl.imp (fun h => by simpa [listPre_cons] using h)
      · rw [List.pairwise_map]
        exact ihr.imp (fun h => by simpa [listPre_cons] using h)
      · intro a ha b hb
        obtain ⟨p, _, rfl⟩ := List.mem_map.mp ha
        obtain ⟨q, _, rfl⟩ := List.mem_map.mp hb
        exact ⟨(listPre_cons_ne p q).1, (listPre_cons_ne q p).2⟩

/-- C6: huffman_generate_codes started at the root with (code, length) =
(0, 0) gives each interior node's left child (code<<1, length+1) and right
child ((code<<1)|1, length+1), so every leaf's code read MSB-first is
exactly its root-to-leaf path with left = 0 and right = 1. -/
theorem generate_codes_shift_and_paths :
    (∀ t len code, childCodesOK (huffman_generate_codes t len code)) ∧
    (∀ t, leafBits (huffman_generate_codes t 0 0) = leafPaths t) := by
  refine ⟨fun t len code => childCodesOK_gen t len code, fun t => ?_⟩
  rw [leafBits_gen t 0 0]
  simp [codeBits]

/-- C4: for every nonempty leaf list, the code tree built by
huffman_build_tree and huffman_generate_codes is prefix-free: no leaf's
code bit string is a prefix (proper or improper) of a different leaf's. -/
theorem prefix_free_codes (L : List HTree) (root : CTree) (hne : L ≠ [])
    (hb : huffman_build_tree L = some root) :
    (leafBits root).Pairwise (fun a b => listPre a b = false ∧ listPre b a = false) := by
  cases L with
  | nil => exact absurd rfl hne
  | cons x xs =>
      have : root = huffman_generate_codes (buildRes (x :: xs)) 0 0 := by
        simpa [huffman_build_tree] using hb.symm
      rw [this, leafBits_gen]
      simp only [codeBits, List.range_zero, List.reverse_nil, List.map_nil, List.nil_append]
      rw [List.map_id'' (fun _ => rfl)]
      exact leafPaths_pairwise _

theorem prefix_free_codes_witness :
    huffman_build_tree [HTree.leaf 0 1, HTree.leaf 1 2] =
      some (CTree.node 3 0 0 (CTree.leaf 0 1 1 0) (CTree.leaf 1 2 1 1)) ∧
    (leafBits (CTree.node 3 0 0 (CTree.leaf 0 1 1 0) (CTree.leaf 1 2 1 1))).Pairwise
      (fun a b => listPre a b = false ∧ listPre b a = false) :=
  ⟨by decide, prefix_free_codes [HTree.leaf 0 1, HTree.leaf 1 2] _ (by decide) (by decide)⟩

theorem qsize_append (a b : List (CTree × Bool)) : qsize (a ++ b) = qsize a + qsize b := by
  simp [qsize]

theorem cq_nil : cq [] = [] := rfl

theorem cq_cons (e : CTree × Bool) (l : List (CTree × Bool)) :
    cq (e :: l) = ((childrenC e.1).map fun t => (t, false)) ++ cq l := by
  simp [cq]

theorem cq_append (a b : List (CTree × Bool)) : cq (a ++ b) = cq a ++ cq b := by
  simp [cq]

theorem qsize_cq (l : List (CTree × Bool)) : qsize (cq l) + l.length = qsize l := by
  induction l with
  | nil => simp [qsize, cq]
  | cons x xs ih =>
      cases h : x.1 <;>
        simp [qsize, cq, childrenC, csize, h, List.flatMap_cons, List.map_append,
          List.sum_append, List.map_cons, List.sum_cons, List.map_map] at ih ⊢ <;>
        omega

theorem bfsLines_rot (cm : Nat → Nat) : ∀ n X Y, qsize (X ++ Y) = n →
    bfsLines cm (X ++ Y) = X.map (specLine cm) ++ bfsLines cm (Y ++ cq X) := by
  intro n
  induction n using Nat.strong_induction_on with
  | _ n ih =>
      intro X Y hq
      match X with
      | [] => simp [cq]
      | x :: xs =>
          rw [List.cons_append]
          rw [bfsLines]
          have hlt : qsize (Y ++ cq (x :: xs)) < n := by
            have h1 := qsize_cq (x :: xs)
            have h2 := qsize_append (x :: xs) Y
            have h3 := qsize_append Y (cq (x :: xs))
            simp only [List.length_cons] at h1
            omega
          have hih := ih _ hlt Y (cq (x :: xs)) rfl
          rw [← List.cons_append, cq_append, hih]
          simp [List.map_append, List.append_assoc]

theorem childrenC_ok {t : CTree} (h : childCodesOK t) :
    ∀ c ∈ childrenC t, childCodesOK c := by
  cases t with
  | leaf s w len code => intro c hc; simp [childrenC] at hc
  | node w len code l r =>
      intro c hc
      simp [childrenC] at hc
      rcases hc with rfl | rfl
      · exact h.2.2.2.2.1
      · exact h.2.2.2.2.2

theorem lineC_eq_specLine (cm : Nat → Nat) (e : CTree × Bool) (h : childCodesOK e.1) :
    lineC cm e = specLine cm e := by
  obtain ⟨t, b⟩ := e
  cases t with
  | leaf s w len code => rfl
  | node w len code l r =>
      simp only [childCodesOK] at h
      simp only [lineC, specLine, bodyC, specBody]
      rw [h.1, h.2.1, h.2.2.1, h.2.2.2.1]

theorem whcLoop_eq_bfsLines (cm : Nat → Nat) : ∀ n q, qsize q = n →
    (∀ e ∈ q, childCodesOK e.1) → whcLoop cm q = bfsLines cm q := by
  intro n
  induction n using Nat.strong_induction_on with
  | _ n ih =>
      intro q hq hca
      match q with
      | [] => simp [whcLoop, bfsLines]
      | e :: rest =>
          rw [whcLoop]
          have hlt : qsize (rest ++ (childrenC e.1).map fun t => (t, false)) < n := by
            have h1 := qsize_cq (e :: rest)
            have h2 := qsize_append rest ((childrenC e.1).map fun t => (t, false))
            have h3 : qsize ((childrenC e.1).map fun t => (t, false)) + qsize (cq rest) =
                qsize (cq (e :: rest)) := by
              rw [cq_cons, qsize_append]
            have h4 := qsize_cq rest
            simp only [List.length_cons] at h1
            omega
          have hca2 : ∀ x ∈ rest ++ (childrenC e.1).map fun t => (t, false),
              childCodesOK x.1 := by
            intro x hx
            rcases List.mem_append.mp hx with hx | hx
            · exact hca x (List.mem_cons_of_mem _ hx)
            · obtain ⟨c, hc, rfl⟩ := List.mem_map.mp hx
              exact childrenC_ok (hca e (List.mem_cons_self _ _)) c hc
          rw [ih _ hlt _ rfl hca2]
          have hrot := bfsLines_rot cm (qsize ([e] ++ rest)) [e] rest rfl
          simp only [List.singleton_append, List.map_cons, List.map_nil] at hrot
          rw [hrot]
          rw [lineC_eq_specLine cm e (hca e (List.mem_cons_self _ _))]
          simp [cq_cons, cq_nil]

/-- C9: the node table written by write_huffman_codes lists one record per
node in breadth-first order: the loop pops a node, emits its record
(label from its (code, length) except for the root; a leaf record is the
zero marker byte then the remapped symbol; an interior record is the two
child-label relative-offset expressions with +1 on the second pointer)
and appends the children of an interior node to the work queue; this
equals the level-order spec emission bfsLines. -/
theorem node_table_bfs (cm : Nat → Nat) (L : List HTree) (root : CTree)
    (hb : huffman_build_tree L = some root) :
    write_huffman_codes cm (some root) = bfsLines cm [(root, true)] := by
  have hroot : root = huffman_generate_codes (buildRes L) 0 0 := by
    cases L with
    | nil => simp [huffman_build_tree] at hb
    | cons x xs => simpa [huffman_build_tree] using hb.symm
  unfold write_huffman_codes
  apply whcLoop_eq_bfsLines cm (qsize [(root, true)]) _ rfl
  intro e he
  simp at he
  subst he
  show childCodesOK root
  rw [hroot]
  exact childCodesOK_gen _ 0 0

theorem node_table_bfs_witness :
    write_huffman_codes (fun b => b)
      (some (CTree.node 3 0 0 (CTree.leaf 2 1 1 0) (CTree.leaf 3 2 1 1))) =
    bfsLines (fun b => b) [(CTree.node 3 0 0 (CTree.leaf 2 1 1 0) (CTree.leaf 3 2 1 1), true)] :=
  node_table_bfs (fun b => b) [HTree.leaf 2 1, HTree.leaf 3 2] _ (by decide)

theorem bpassN_zero (l : List HTree) : bpassN 0 l = l := by
  cases l with
  | nil => rfl
  | cons a t => cases t <;> rfl

theorem bpassN_spec : ∀ (n : Nat) (l : List HTree), n + 1 ≤ l.length →
    ∃ u y, bpassN n l = u ++ y :: l.drop (n + 1) ∧ u.length = n ∧
      (u ++ [y]).Perm (l.take (n + 1)) ∧
      ∀ x ∈ l.take (n + 1), storedW y ≤ storedW x := by
  intro n
  induction n with
  | zero =>
      intro l hl
      match l with
      | a :: t =>
          refine ⟨[], a, by simp [bpassN_zero], rfl, by simp, ?_⟩
          intro x hx
          simp [List.take_succ_cons] at hx
          simp [hx]
  | succ n ihn =>
      intro l hl
      match l with
      | a :: b :: t =>
          have hlt : n + 1 ≤ (a :: t).length ∧ n + 1 ≤ (b :: t).length := by
            simp at hl ⊢; omega
          by_cases hab : storedW a < storedW b
          · obtain ⟨u, y, heq, hulen, huperm, hymin⟩ := ihn (a :: t) hlt.1
            refine ⟨b :: u, y, ?_, by simp [hulen], ?_, ?_⟩
            · simp only [bpassN, if_pos hab, heq, List.drop_succ_cons, List.cons_append]
            · have h1 : (b :: u) ++ [y] = b :: (u ++ [y]) := by simp
              rw [h1, List.take_succ_cons, List.take_succ_cons]
              have h2 : (b :: (u ++ [y])).Perm (b :: (a :: t).take (n + 1)) :=
                huperm.cons b
              rw [List.take_succ_cons] at h2
              exact h2.trans (List.Perm.swap a b _)
            · intro x hx
              rw [List.take_succ_cons, List.take_succ_cons] at hx
              have hya : storedW y ≤ storedW a := hymin a (by simp [List.take_succ_cons])
              simp only [List.mem_cons] at hx
              rcases hx with rfl | rfl | hx
              · exact hya
              · exact le_trans hya (le_of_lt hab)
              · exact hymin x (by simp [List.take_succ_cons, List.mem_cons_of_mem, hx])
          · obtain ⟨u, y, heq, hulen, huperm, hymin⟩ := ihn (b :: t) hlt.2
            refine ⟨a :: u, y, ?_, by simp [hulen], ?_, ?_⟩
            · simp only [bpassN, if_neg hab, heq, List.drop_succ_cons, List.cons_append]
            · have h1 : (a :: u) ++ [y] = a :: (u ++ [y]) := by simp
              rw [h1, List.take_succ_cons, List.take_succ_cons]
              exact (huperm.cons a).trans (by rw [List.take_succ_cons])
            · intro x hx
              rw [List.take_succ_cons, List.take_succ_cons] at hx
              have hyb : storedW y ≤ storedW b := hymin b (by simp [List.take_succ_cons])
              simp only [List.mem_cons] at hx
              rcases hx with rfl | rfl | hx
              · exact le_trans hyb (Nat.le_of_not_lt hab)
              · exact hyb
              · exact hymin x (by simp [List.take_succ_cons, List.mem_cons_of_mem, hx])

theorem bpassN_perm (n : Nat) (l : List HTree) (h : n + 1 ≤ l.length) :
    (bpassN n l).Perm l := by
  obtain ⟨u, y, heq, _, huperm, _⟩ := bpassN_spec n l h
  rw [heq]
  have h1 : u ++ y :: l.drop (n + 1) = (u ++ [y]) ++ l.drop (n + 1) := by simp
  rw [h1]
  have h2 : ((u ++ [y]) ++ l.drop (n + 1)).Perm (l.take (n + 1) ++ l.drop (n + 1)) :=
    huperm.append_right _
  rw [List.take_append_drop] at h2
  exact h2

theorem sortLoop_spec : ∀ (j : Nat) (l : List HTree), j + 1 ≤ l.length →
    (l.drop (j + 1)).Pairwise (fun a b => storedW b ≤ storedW a) →
    (∀ x ∈ l.take (j + 1), ∀ y ∈ l.drop (j + 1), storedW y ≤ storedW x) →
    (sortLoop j l).Perm l ∧
      (sortLoop j l).Pairwise (fun a b => storedW b ≤ storedW a) := by
  intro j
  induction j with
  | zero =>
      intro l hlen hsort hsep
      refine ⟨List.Perm.refl _, ?_⟩
      match l with
      | a :: t =>
          show (a :: t).Pairwise _
          rw [List.pairwise_cons]
          refine ⟨fun y hy => hsep a (by simp [List.take_succ_cons]) y ?_, ?_⟩
          · simpa [List.drop_succ_cons] using hy
          · simpa [List.drop_succ_cons] using hsort
  | succ j ihj =>
      intro l hlen hsort hsep
      obtain ⟨u, y, heq, hulen, huperm, hymin⟩ := bpassN_spec (j + 1) l hlen
      have hperm : (bpassN (j + 1) l).Perm l := bpassN_perm _ _ hlen
      have hymem : y ∈ l.take (j + 2) := huperm.mem_iff.mp (by simp)
      have hlen2 : j + 1 ≤ (bpassN (j + 1) l).length := by
        rw [hperm.length_eq]; omega
      have hdrop : (bpassN (j + 1) l).drop (j + 1) = y :: l.drop (j + 2) := by
        rw [heq, List.drop_left' hulen]
      have htake : (bpassN (j + 1) l).take (j + 1) = u := by
        rw [heq, List.take_left' hulen]
      have hsort2 : ((bpassN (j + 1) l).drop (j + 1)).Pairwise
          (fun a b => storedW b ≤ storedW a) := by
        rw [hdrop, List.pairwise_cons]
        exact ⟨fun z hz => hsep y hymem z hz, hsort⟩
      have hsep2 : ∀ x ∈ (bpassN (j + 1) l).take (j + 1),
          ∀ z ∈ (bpassN (j + 1) l).drop (j + 1), storedW z ≤ storedW x := by
        rw [hdrop, htake]
        intro x hx z hz
        have hxt : x ∈ l.take (j + 2) := huperm.mem_iff.mp (by simp [hx])
        rcases hz with _ | hz
        · exact hymin x hxt
        · next hz => exact hsep x hxt z hz
      have := ihj (bpassN (j + 1) l) hlen2 hsort2 hsep2
      exact ⟨this.1.trans hperm, this.2⟩

theorem csort_spec (l : List HTree) :
    (csort l).Perm l ∧ (csort l).Pairwise (fun a b => storedW b ≤ storedW a) := by
  cases l with
  | nil => exact ⟨List.Perm.refl _, List.Pairwise.nil⟩
  | cons a t =>
      have h : csort (a :: t) = sortLoop t.length (a :: t) := by
        simp [csort]
      rw [h]
      apply sortLoop_spec t.length (a :: t) (by simp)
      · rw [List.drop_eq_nil_of_le (by simp)]
        exact List.Pairwise.nil
      · intro x _ z hz
        rw [List.drop_eq_nil_of_le (by simp)] at hz
        simp at hz

theorem mergeLastTwo_structure (s : List HTree) (h : 2 ≤ s.length) :
    ∃ n1 n2 rest, s = rest ++ [n2, n1] ∧
      mergeLastTwo s = rest ++ [HTree.node (storedW n1 + storedW n2) n1 n2] := by
  match hrev : s.reverse with
  | [] =>
      exfalso
      have hs : s = [] := by rw [← s.reverse_reverse, hrev]; rfl
      rw [hs] at h
      simp at h
  | [a] =>
      exfalso
      have hs : s = [a] := by rw [← s.reverse_reverse, hrev]; rfl
      rw [hs] at h
      simp at h
  | n1 :: n2 :: rrest =>
      refine ⟨n1, n2, rrest.reverse, ?_, ?_⟩
      · have h1 : s = s.reverse.reverse := (List.reverse_reverse s).symm
        rw [h1, hrev]
        simp
      · show (match s.reverse with
          | n1 :: n2 :: rest => (HTree.node (storedW n1 + storedW n2) n1 n2 :: rest).reverse
          | _ => s) = _
        rw [hrev]
        simp

theorem sorted_last_two_min (rest : List HTree) (n1 n2 : HTree)
    (h : (rest ++ [n2, n1]).Pairwise (fun a b => storedW b ≤ storedW a)) :
    storedW n1 ≤ storedW n2 ∧
      ∀ t ∈ rest, storedW n1 ≤ storedW t ∧ storedW n2 ≤ storedW t := by
  rw [List.pairwise_append] at h
  obtain ⟨h1, h2, h3⟩ := h
  refine ⟨?_, fun t ht => ⟨h3 t ht n1 (by simp), h3 t ht n2 (by simp)⟩⟩
  exact (List.pairwise_cons.mp h2).1 n1 (by simp)

theorem buildRes_step (L : List HTree) (m : Nat) (hlen : L.length = m + 2) :
    buildRes L = buildRes (mergeLastTwo (csort L)) ∧
      (mergeLastTwo (csort L)).length = m + 1 := by
  have hcl : (csort L).length = L.length := (csort_spec L).1.length_eq
  obtain ⟨n1, n2, rest, hs, hm⟩ := mergeLastTwo_structure (csort L) (by omega)
  have hrl : rest.length = m := by
    have := congrArg List.length hs
    simp at this
    omega
  have hml : (mergeLastTwo (csort L)).length = m + 1 := by
    rw [hm]
    simp [hrl]
  refine ⟨?_, hml⟩
  unfold buildRes
  rw [hlen, hml]
  have e1 : m + 2 - 1 = m + 1 := rfl
  have e2 : m + 1 - 1 = m := rfl
  rw [e1, e2]
  rfl

theorem vcost_perm {v v' : List (Nat × Nat)} (h : v.Perm v') : vcost v = vcost v' :=
  (h.map _).sum_eq

theorem kraftN_snd (D : Nat) (v : List (Nat × Nat)) :
    kraftN D v = ((v.map Prod.snd).map (fun d => 2 ^ (D - d))).sum := by
  simp [kraftN, List.map_map]
  rfl

theorem kraftN_of_snd_perm (D : Nat) {v v' : List (Nat × Nat)}
    (h : (v.map Prod.snd).Perm (v'.map Prod.snd)) : kraftN D v = kraftN D v' := by
  rw [kraftN_snd, kraftN_snd]
  exact (h.map _).sum_eq

theorem le_foldr_max (x : Nat) (l : List Nat) (h : x ∈ l) : x ≤ l.foldr max 0 := by
  induction l with
  | nil => simp at h
  | cons a t ih =>
      rcases List.mem_cons.mp h with rfl | h2
      · exact le_max_left _ _
      · exact le_trans (ih h2) (le_max_right _ _)

theorem foldr_max_mem (l : List Nat) (h : l ≠ []) : l.foldr max 0 ∈ l := by
  induction l with
  | nil => exact absurd rfl h
  | cons a t ih =>
      cases t with
      | nil => simp
      | cons b t2 =>
          rcases Nat.le_total a ((b :: t2).foldr max 0) with h1 | h1
          · rw [List.foldr_cons, max_eq_right h1]
            exact List.mem_cons_of_mem _ (ih (by simp))
          · rw [List.foldr_cons, max_eq_left h1]
            simp

theorem foldr_max_le (l : List Nat) (D : Nat) (h : ∀ x ∈ l, x ≤ D) :
    l.foldr max 0 ≤ D := by
  induction l with
  | nil => simp
  | cons a t ih =>
      rw [List.foldr_cons]
      exact max_le (h a (by simp)) (ih fun x hx => h x (List.mem_cons_of_mem _ hx))

theorem mem_snd_le_maxD (v : List (Nat × Nat)) : ∀ p ∈ v, p.2 ≤ maxD v :=
  fun p hp => le_foldr_max _ _ (List.mem_map_of_mem _ hp)

theorem maxD_mem (v : List (Nat × Nat)) (h : v ≠ []) : ∃ p ∈ v, p.2 = maxD v := by
  have h2 : maxD v ∈ v.map Prod.snd := foldr_max_mem _ (by simp [h])
  obtain ⟨p, hp, hpd⟩ := List.mem_map.mp h2
  exact ⟨p, hp, hpd⟩

theorem maxD_le (v : List (Nat × Nat)) (D : Nat) (h : ∀ p ∈ v, p.2 ≤ D) :
    maxD v ≤ D := by
  apply foldr_max_le
  intro x hx
  obtain ⟨p, hp, rfl⟩ := List.mem_map.mp hx
  exact h p hp

theorem kraftN_shift (v : List (Nat × Nat)) (D1 D2 : Nat)
    (hle : ∀ p ∈ v, p.2 ≤ D1) (h12 : D1 ≤ D2) :
    kraftN D2 v = 2 ^ (D2 - D1) * kraftN D1 v := by
  induction v with
  | nil => simp [kraftN]
  | cons p t ih =>
      have hp := hle p (by simp)
      have hsplit : 2 ^ (D2 - p.2) = 2 ^ (D2 - D1) * 2 ^ (D1 - p.2) := by
        rw [← pow_add]
        congr 1
        omega
      simp only [kraftN, List.map_cons, List.sum_cons] at ih ⊢
      rw [hsplit, ih fun q hq => hle q (List.mem_cons_of_mem _ hq), Nat.mul_add]

theorem sum_map_one {α : Type} (l : List α) (f : α → Nat) (h : ∀ x ∈ l, f x = 1) :
    (l.map f).sum = l.length := by
  induction l with
  | nil => rfl
  | cons a t ih =>
      simp only [List.map_cons, List.sum_cons, h a (by simp), List.length_cons]
      rw [ih fun x hx => h x (List.mem_cons_of_mem _ hx)]
      omega

theorem mul_swap_le (w x d D : Nat) (h1 : w ≤ x) (h2 : d ≤ D) :
    w * D + x * d ≤ x * D + w * d := by
  obtain ⟨a, rfl⟩ := Nat.le.dest h1
  obtain ⟨b, rfl⟩ := Nat.le.dest h2
  ring_nf
  nlinarith [Nat.zero_le (a * b)]

theorem mem_split_perm {α : Type} (a : α) (l : List α) (h : a ∈ l) :
    ∃ t, l.Perm (a :: t) := by
  obtain ⟨s, t, rfl⟩ := List.append_of_mem h
  exact ⟨s ++ t, List.perm_middle⟩

theorem mem_split_perm2 {α : Type} (a b : α) (l : List α) (ha : a ∈ l) (hb : b ∈ l)
    (hab : b ≠ a) : ∃ t, l.Perm (a :: b :: t) := by
  obtain ⟨s, t, rfl⟩ := List.append_of_mem ha
  have hbst : b ∈ s ++ t := by
    rcases List.mem_append.mp hb with h | h
    · exact List.mem_append.mpr (Or.inl h)
    · rcases List.mem_cons.mp h with h | h
      · exact absurd h hab
      · exact List.mem_append.mpr (Or.inr h)
  obtain ⟨u, hu⟩ := mem_split_perm b (s ++ t) hbst
  exact ⟨u, List.perm_middle.trans (hu.cons a)⟩

theorem vcost_cons (p : Nat × Nat) (t : List (Nat × Nat)) :
    vcost (p :: t) = p.1 * p.2 + vcost t := by
  simp [vcost]

theorem exchange (v : List (Nat × Nat)) (w D : Nat)
    (hw : w ∈ v.map Prod.fst) (hmin : ∀ p ∈ v, w ≤ p.1)
    (hD : ∃ p ∈ v, p.2 = D) (hDb : ∀ p ∈ v, p.2 ≤ D) :
    ∃ v', (((w, D) :: v').map Prod.fst).Perm (v.map Prod.fst) ∧
          (((w, D) :: v').map Prod.snd).Perm (v.map Prod.snd) ∧
          vcost ((w, D) :: v') ≤ vcost v := by
  obtain ⟨p, hpv, hpD⟩ := hD
  obtain ⟨x, dx⟩ := p
  simp only at hpD
  rw [hpD] at hpv
  by_cases hxw : x = w
  · subst hxw
    obtain ⟨v1, hv1⟩ := mem_split_perm (x, D) v hpv
    exact ⟨v1, (hv1.map Prod.fst).symm, (hv1.map Prod.snd).symm,
      le_of_eq (vcost_perm hv1).symm⟩
  · obtain ⟨q, hq, hqw⟩ := List.mem_map.mp hw
    have hwd : (w, q.2) ∈ v := by
      have : (q.1, q.2) = q := rfl
      rw [← hqw, this]
      exact hq
    have hne : (w, q.2) ≠ (x, D) := by
      intro hcon
      exact hxw (by cases hcon; rfl)
    obtain ⟨v2, hbig⟩ := mem_split_perm2 (x, D) (w, q.2) v hpv hwd hne
    refine ⟨(x, q.2) :: v2, ?_, ?_, ?_⟩
    · have h1 := hbig.map Prod.fst
      show (w :: x :: v2.map Prod.fst).Perm (v.map Prod.fst)
      exact (List.Perm.swap x w _).trans h1.symm
    · have h1 := hbig.map Prod.snd
      show (D :: q.2 :: v2.map Prod.snd).Perm (v.map Prod.snd)
      exact h1.symm
    · have h1 : vcost v = x * D + (w * q.2 + vcost v2) := by
        rw [vcost_perm hbig, vcost_cons, vcost_cons]
      have h4 : w ≤ x := hmin (x, D) hpv
      have h5 : q.2 ≤ D := hDb (w, q.2) hwd
      have h6 := mul_swap_le w x q.2 D h4 h5
      rw [vcost_cons, vcost_cons, h1]
      show w * D + (x * q.2 + vcost v2) ≤ x * D + (w * q.2 + vcost v2)
      omega

theorem two_maxD_entries (v : List (Nat × Nat)) (hlen : 2 ≤ v.length)
    (hk : kraftN (maxD v) v = 2 ^ maxD v) :
    1 ≤ maxD v ∧
    ∃ p1 p2 v2, v.Perm (p1 :: p2 :: v2) ∧ p1.2 = maxD v ∧ p2.2 = maxD v := by
  have hne : v ≠ [] := by intro h; rw [h] at hlen; simp at hlen
  have hD1 : 1 ≤ maxD v := by
    by_contra hcon
    have hD0 : maxD v = 0 := by omega
    have hone : kraftN (maxD v) v = v.length := by
      apply sum_map_one
      intro p hp
      have := mem_snd_le_maxD v p hp
      rw [hD0] at this ⊢
      simp [Nat.le_zero.mp this]
    rw [hone, hD0] at hk
    simp at hk
    omega
  obtain ⟨p1, hp1v, hp1D⟩ := maxD_mem v hne
  obtain ⟨v1, hv1⟩ := mem_split_perm p1 v hp1v
  have hsub1 : ∀ p ∈ v1, p ∈ v := fun p hp =>
    hv1.symm.subset (List.mem_cons_of_mem _ hp)
  have hk1 : kraftN (maxD v) v = 2 ^ (maxD v - p1.2) + kraftN (maxD v) v1 := by
    rw [kraftN_of_snd_perm (maxD v) (hv1.map Prod.snd)]
    simp [kraftN]
  rw [hp1D] at hk1
  simp only [Nat.sub_self, pow_zero] at hk1
  have hex : ∃ p2 ∈ v1, p2.2 = maxD v := by
    by_contra hn
    push_neg at hn
    have heven : 2 ∣ kraftN (maxD v) v1 := by
      apply List.dvd_sum
      intro x hx
      obtain ⟨p, hp, rfl⟩ := List.mem_map.mp hx
      have hle : p.2 ≤ maxD v := mem_snd_le_maxD v p (hsub1 p hp)
      have hne2 : p.2 ≠ maxD v := hn p hp
      have hstep : maxD v - p.2 = (maxD v - p.2 - 1) + 1 := by omega
      rw [hstep, pow_succ]
      exact dvd_mul_left 2 _
    obtain ⟨k, hk'⟩ := heven
    have h2D : (2 : Nat) ∣ 2 ^ maxD v := by
      have hstep : maxD v = (maxD v - 1) + 1 := by omega
      rw [hstep, pow_succ]
      exact dvd_mul_left 2 _
    obtain ⟨mm, hm⟩ := h2D
    omega
  obtain ⟨p2, hp2, hp2D⟩ := hex
  obtain ⟨v2, hv2⟩ := mem_split_perm p2 v1 hp2
  exact ⟨hD1, p1, p2, v2, hv1.trans (hv2.cons p1), hp1D, hp2D⟩

theorem sumSCost_perm {L L' : List HTree} (h : L.Perm L') : sumSCost L = sumSCost L' :=
  (h.map _).sum_eq

theorem distr_aux (a b c : Nat) (h : 1 ≤ c) :
    (a + b) * (c - 1) + (a + b) = a * c + b * c := by
  obtain ⟨k, rfl⟩ : ∃ k, c = k + 1 := ⟨c - 1, by omega⟩
  simp only [Nat.add_sub_cancel]
  ring

theorem lb : ∀ (n : Nat) (L : List HTree) (v : List (Nat × Nat)),
    L.length = n + 1 →
    (v.map Prod.fst).Perm (L.map storedW) →
    kraftN (maxD v) v = 2 ^ maxD v →
    sCost (buildRes L) ≤ sumSCost L + vcost v := by
  intro n
  induction n using Nat.strong_induction_on with
  | _ n ih =>
      intro L v hlen hperm hk
      cases n with
      | zero =>
          match L, hlen with
          | [t], _ =>
              have hvlen : v.length = 1 := by
                have := hperm.length_eq
                simpa using this
              match v, hvlen with
              | [p], _ =>
                  have hmax : maxD [p] = p.2 := by
                    simp [maxD]
                  have h1 : kraftN p.2 [p] = 1 := by
                    simp [kraftN]
                  rw [hmax, h1] at hk
                  have hp2 : p.2 = 0 := by
                    by_contra hc
                    have := Nat.one_lt_two_pow (show p.2 ≠ 0 from hc)
                    omega
                  have hv : vcost [p] = 0 := by
                    simp [vcost, hp2]
                  rw [hv]
                  show sCost t ≤ sumSCost [t] + 0
                  simp [sumSCost]
      | succ m =>
          have hcs := csort_spec L
          have hcl : (csort L).length = L.length := hcs.1.length_eq
          obtain ⟨n1, n2, rest, hs, hm⟩ := mergeLastTwo_structure (csort L) (by omega)
          have hsorted : (rest ++ [n2, n1]).Pairwise (fun a b => storedW b ≤ storedW a) := by
            rw [← hs]; exact hcs.2
          have hmin12 := sorted_last_two_min rest n1 n2 hsorted
          obtain ⟨hbr, hlen'⟩ := buildRes_step L m hlen
          -- weights of L as a permutation
          have hwL : (L.map storedW).Perm
              (storedW n1 :: storedW n2 :: rest.map storedW) := by
            have h1 : (L.map storedW).Perm ((csort L).map storedW) :=
              (hcs.1.map storedW).symm
            rw [hs] at h1
            refine h1.trans ?_
            have h2 : (rest.map storedW ++ [storedW n2, storedW n1]).Perm
                (storedW n2 :: (rest.map storedW ++ [storedW n1])) := by
              have hmid : (rest.map storedW ++ storedW n2 :: [storedW n1]).Perm
                  (storedW n2 :: (rest.map storedW ++ [storedW n1])) :=
                List.perm_middle
              simpa using hmid
            have h3 : (rest.map storedW ++ [storedW n1]).Perm
                (storedW n1 :: rest.map storedW) := List.perm_append_singleton _ _
            have h4 := h2.trans (h3.cons (storedW n2))
            have h5 := h4.trans (List.Perm.swap (storedW n1) (storedW n2) _)
            simpa using h5
          -- weights of the merged list
          have hwL' : ((mergeLastTwo (csort L)).map storedW).Perm
              ((storedW n1 + storedW n2) :: rest.map storedW) := by
            rw [hm]
            have : ((rest ++ [HTree.node (storedW n1 + storedW n2) n1 n2]).map storedW)
                = rest.map storedW ++ [storedW n1 + storedW n2] := by
              simp [storedW]
            rw [this]
            exact List.perm_append_singleton _ _
          -- sum of sCost over merged list
          have hsum : sumSCost (mergeLastTwo (csort L))
              = sumSCost L + storedW n1 + storedW n2 := by
            have h1 : sumSCost L = sumSCost (csort L) := sumSCost_perm hcs.1.symm
            rw [h1, hm, hs]
            simp [sumSCost, sCost]
            omega
          -- vector length
          have hvlen : v.length = m + 2 := by
            have h1 := hperm.length_eq
            simp at h1
            omega
          obtain ⟨hD1, p1, p2, vrest, hvp, hp1, hp2⟩ :=
            two_maxD_entries v (by omega) hk
          -- first exchange
          have hw1mem : storedW n1 ∈ v.map Prod.fst := by
            rw [hperm.mem_iff]
            exact hwL.mem_iff.mpr (by simp)
          have hmin1 : ∀ p ∈ v, storedW n1 ≤ p.1 := by
            intro p hp
            have hpm : p.1 ∈ v.map Prod.fst := List.mem_map_of_mem _ hp
            rw [hperm.mem_iff, hwL.mem_iff] at hpm
            simp only [List.mem_cons] at hpm
            rcases hpm with h | h | h
            · omega
            · rw [h]; exact hmin12.1
            · obtain ⟨t, ht, hts⟩ := List.mem_map.mp h
              rw [← hts]
              exact (hmin12.2 t ht).1
          have hDex : ∃ p ∈ v, p.2 = maxD v :=
            ⟨p1, hvp.symm.subset (by simp), hp1⟩
          obtain ⟨v1, hf1, hs1, hc1⟩ :=
            exchange v (storedW n1) (maxD v) hw1mem hmin1 hDex (mem_snd_le_maxD v)
          -- facts about v1
          have hf1b : (v1.map Prod.fst).Perm (storedW n2 :: rest.map storedW) := by
            have h1 : (storedW n1 :: v1.map Prod.fst).Perm
                (storedW n1 :: storedW n2 :: rest.map storedW) :=
              (hf1.trans hperm).trans hwL
            exact h1.cons_inv
          have hw2mem : storedW n2 ∈ v1.map Prod.fst :=
            hf1b.mem_iff.mpr (by simp)
          have hmin2v : ∀ p ∈ v1, storedW n2 ≤ p.1 := by
            intro p hp
            have hpm : p.1 ∈ v1.map Prod.fst := List.mem_map_of_mem _ hp
            rw [hf1b.mem_iff] at hpm
            simp only [List.mem_cons] at hpm
            rcases hpm with h | h
            · omega
            · obtain ⟨t, ht, hts⟩ := List.mem_map.mp h
              rw [← hts]
              exact (hmin12.2 t ht).2
          have hsndsub : ∀ d, d ∈ v1.map Prod.snd → d ∈ v.map Prod.snd := by
            intro d hd
            exact hs1.subset (List.mem_cons_of_mem _ hd)
          have hDb1 : ∀ p ∈ v1, p.2 ≤ maxD v := by
            intro p hp
            have := hsndsub p.2 (List.mem_map_of_mem _ hp)
            obtain ⟨q, hq, hqd⟩ := List.mem_map.mp this
            rw [← hqd]
            exact mem_snd_le_maxD v q hq
          have hDex1 : ∃ p ∈ v1, p.2 = maxD v := by
            have hcv : ((p1 :: p2 :: vrest).map Prod.snd).count (maxD v)
                = (v.map Prod.snd).count (maxD v) := ((hvp.map Prod.snd).count_eq _).symm
            have hcv2 : 2 ≤ (v.map Prod.snd).count (maxD v) := by
              rw [← hcv]
              simp [hp1, hp2]
            have hcv3 : (((storedW n1, maxD v) :: v1).map Prod.snd).count (maxD v)
                = (v.map Prod.snd).count (maxD v) := hs1.count_eq _
            simp only [List.map_cons, List.count_cons_self] at hcv3
            have hpos : 0 < (v1.map Prod.snd).count (maxD v) := by omega
            have := List.count_pos_iff_mem.mp hpos
            obtain ⟨q, hq, hqd⟩ := List.mem_map.mp this
            exact ⟨q, hq, hqd⟩
          obtain ⟨v2, hf2, hs2, hc2⟩ :=
            exchange v1 (storedW n2) (maxD v) hw2mem hmin2v hDex1 hDb1
          -- fst multiset of v2
          have hf2b : (v2.map Prod.fst).Perm (rest.map storedW) := by
            have h1 : (storedW n2 :: v2.map Prod.fst).Perm
                (storedW n2 :: rest.map storedW) := hf2.trans hf1b
            exact h1.cons_inv
          -- kraft bookkeeping
          have hkv1 : kraftN (maxD v) v = 1 + kraftN (maxD v) v1 := by
            rw [kraftN_of_snd_perm (maxD v) hs1.symm]
            simp [kraftN]
          have hkv2 : kraftN (maxD v) v1 = 1 + kraftN (maxD v) v2 := by
            rw [kraftN_of_snd_perm (maxD v) hs2.symm]
            simp [kraftN]
          -- the merged vector u
          have hku : kraftN (maxD v) ((storedW n1 + storedW n2, maxD v - 1) :: v2)
              = 2 ^ maxD v := by
            have h1 : maxD v - (maxD v - 1) = 1 := by omega
            simp only [kraftN, List.map_cons, List.sum_cons, h1, pow_one]
            have h2 : kraftN (maxD v) v2 = ((v2.map fun p => 2 ^ (maxD v - p.2))).sum := rfl
            rw [← h2]
            omega
          have hub : ∀ p ∈ ((storedW n1 + storedW n2, maxD v - 1) :: v2), p.2 ≤ maxD v := by
            intro p hp
            rcases List.mem_cons.mp hp with rfl | hp
            · simp
            · have hd : p.2 ∈ v1.map Prod.snd :=
                hs2.subset (List.mem_cons_of_mem _ (List.mem_map_of_mem _ hp))
              obtain ⟨q, hq, hqd⟩ := List.mem_map.mp hd
              rw [← hqd]
              exact hDb1 q hq
          have hmu : maxD ((storedW n1 + storedW n2, maxD v - 1) :: v2) ≤ maxD v :=
            maxD_le _ _ hub
          have hkmu : kraftN (maxD ((storedW n1 + storedW n2, maxD v - 1) :: v2))
                ((storedW n1 + storedW n2, maxD v - 1) :: v2)
              = 2 ^ maxD ((storedW n1 + storedW n2, maxD v - 1) :: v2) := by
            have hshift := kraftN_shift ((storedW n1 + storedW n2, maxD v - 1) :: v2)
              (maxD ((storedW n1 + storedW n2, maxD v - 1) :: v2)) (maxD v)
              (mem_snd_le_maxD _) hmu
            rw [hku] at hshift
            have hpow : (2:Nat) ^ maxD v
                = 2 ^ (maxD v - maxD ((storedW n1 + storedW n2, maxD v - 1) :: v2))
                  * 2 ^ maxD ((storedW n1 + storedW n2, maxD v - 1) :: v2) := by
              rw [← pow_add]
              congr 1
              omega
            rw [hpow] at hshift
            exact (Nat.eq_of_mul_eq_mul_left (Nat.pos_pow_of_pos _ (by omega)) hshift.symm)
          -- apply the induction hypothesis
          have hihperm : ((((storedW n1 + storedW n2, maxD v - 1) :: v2)).map Prod.fst).Perm
              ((mergeLastTwo (csort L)).map storedW) := by
            simp only [List.map_cons]
            exact (hf2b.cons _).trans hwL'.symm
          have hih := ih m (by omega) (mergeLastTwo (csort L))
            ((storedW n1 + storedW n2, maxD v - 1) :: v2)
            (by omega) hihperm hkmu
          -- cost chain
          have hvc1 : vcost ((storedW n1, maxD v) :: v1)
              = storedW n1 * maxD v + vcost v1 := vcost_cons _ _
          have hvc2 : vcost ((storedW n2, maxD v) :: v2)
              = storedW n2 * maxD v + vcost v2 := vcost_cons _ _
          have hvcu : vcost ((storedW n1 + storedW n2, maxD v - 1) :: v2)
              = (storedW n1 + storedW n2) * (maxD v - 1) + vcost v2 := vcost_cons _ _
          have hdistr : (storedW n1 + storedW n2) * (maxD v - 1) + (storedW n1 + storedW n2)
              = storedW n1 * maxD v + storedW n2 * maxD v :=
            distr_aux _ _ _ hD1
          rw [hbr]
          omega

theorem dl_ne_nil (t : HTree) : dl t ≠ [] := by
  induction t with
  | leaf s w => simp [dl]
  | node w l r ihl ihr =>
      simp only [dl, ne_eq, List.map_eq_nil_iff, List.append_eq_nil]
      intro h
      exact ihl h.1

theorem leafWeights_node (w : Nat) (l r : HTree) :
    leafWeights (HTree.node w l r) = leafWeights l ++ leafWeights r := by
  simp [leafWeights, dl, List.map_map, Function.comp_def]

theorem leafWeights_leaf (s w : Nat) : leafWeights (HTree.leaf s w) = [w] := rfl

theorem vcost_append (a b : List (Nat × Nat)) : vcost (a ++ b) = vcost a + vcost b := by
  simp [vcost]

theorem vcost_map_succ (xs : List (Nat × Nat)) :
    vcost (xs.map fun p => (p.1, p.2 + 1)) = vcost xs + (xs.map Prod.fst).sum := by
  induction xs with
  | nil => simp [vcost]
  | cons p t ih =>
      simp only [List.map_cons, vcost_cons, ih, List.sum_cons]
      have : p.1 * (p.2 + 1) = p.1 * p.2 + p.1 := by ring
      show p.1 * (p.2 + 1) + (vcost t + (t.map Prod.fst).sum) = _
      omega

theorem storedW_eq_sum (t : HTree) (h : wfw t) : storedW t = (leafWeights t).sum := by
  induction t with
  | leaf s w => simp [storedW, leafWeights_leaf]
  | node w l r ihl ihr =>
      simp only [wfw] at h
      rw [leafWeights_node, List.sum_append]
      show w = _
      rw [h.1, ihl h.2.1, ihr h.2.2]

theorem vcost_dl (t : HTree) (h : wfw t) : vcost (dl t) = sCost t := by
  induction t with
  | leaf s w => simp [dl, vcost, sCost]
  | node w l r ihl ihr =>
      simp only [wfw] at h
      show vcost ((dl l ++ dl r).map fun p => (p.1, p.2 + 1)) = _
      rw [vcost_map_succ, vcost_append]
      have hmap : ((dl l ++ dl r).map Prod.fst).sum
          = (leafWeights l).sum + (leafWeights r).sum := by
        simp [leafWeights]
      rw [hmap, ihl h.2.1, ihr h.2.2, ← storedW_eq_sum l h.2.1, ← storedW_eq_sum r h.2.2]
      show _ = sCost l + sCost r + storedW l + storedW r
      omega

theorem kraftN_map_succ (D : Nat) (xs : List (Nat × Nat))
    (h : ∀ p ∈ xs, p.2 + 1 ≤ D) :
    kraftN D (xs.map fun p => (p.1, p.2 + 1)) = kraftN (D - 1) xs := by
  unfold kraftN
  rw [List.map_map]
  apply congrArg
  apply List.map_congr_left
  intro p hp
  show 2 ^ (D - (p.2 + 1)) = 2 ^ (D - 1 - p.2)
  congr 1
  have := h p hp
  omega

theorem dl_kraft (t : HTree) : ∀ D, (∀ p ∈ dl t, p.2 ≤ D) → kraftN D (dl t) = 2 ^ D := by
  induction t with
  | leaf s w => intro D _; simp [dl, kraftN]
  | node w l r ihl ihr =>
      intro D hb
      have hD1 : 1 ≤ D := by
        obtain ⟨p, hp⟩ := List.exists_mem_of_ne_nil _ (dl_ne_nil l)
        have hmem : (p.1, p.2 + 1) ∈ dl (HTree.node w l r) := by
          show _ ∈ (dl l ++ dl r).map fun p => (p.1, p.2 + 1)
          exact List.mem_map_of_mem _ (List.mem_append.mpr (Or.inl hp))
        have := hb _ hmem
        simp at this
        omega
      have hstep : ∀ p ∈ dl l ++ dl r, p.2 + 1 ≤ D := by
        intro p hp
        have hmem : (p.1, p.2 + 1) ∈ dl (HTree.node w l r) := by
          show _ ∈ (dl l ++ dl r).map fun p => (p.1, p.2 + 1)
          exact List.mem_map_of_mem _ hp
        exact hb _ hmem
      obtain ⟨E, rfl⟩ : ∃ E, D = E + 1 := ⟨D - 1, by omega⟩
      show kraftN (E + 1) ((dl l ++ dl r).map fun p => (p.1, p.2 + 1)) = 2 ^ (E + 1)
      rw [kraftN_map_succ (E + 1) _ hstep, Nat.add_sub_cancel]
      have hsplit : kraftN E (dl l ++ dl r)
          = kraftN E (dl l) + kraftN E (dl r) := by
        simp [kraftN]
      rw [hsplit,
        ihl E (fun p hp => by have := hstep p (List.mem_append.mpr (Or.inl hp)); omega),
        ihr E (fun p hp => by have := hstep p (List.mem_append.mpr (Or.inr hp)); omega),
        pow_succ]
      omega

theorem dl_kraft_maxD (t : HTree) :
    kraftN (maxD (dl t)) (dl t) = 2 ^ maxD (dl t) :=
  dl_kraft t _ (mem_snd_le_maxD _)

theorem wfw_buildRes : ∀ (n : Nat) (L : List HTree), L.length = n + 1 →
    (∀ t ∈ L, wfw t) → wfw (buildRes L) := by
  intro n
  induction n using Nat.strong_induction_on with
  | _ n ih =>
      intro L hlen hall
      cases n with
      | zero =>
          match L, hlen with
          | [t], _ => exact hall t (by simp)
      | succ m =>
          have hcs := csort_spec L
          have hcl : (csort L).length = L.length := hcs.1.length_eq
          obtain ⟨n1, n2, rest, hs, hm⟩ := mergeLastTwo_structure (csort L) (by omega)
          obtain ⟨hbr, hlen'⟩ := buildRes_step L m hlen
          rw [hbr]
          apply ih m (by omega) _ (by omega)
          intro t ht
          rw [hm] at ht
          rcases List.mem_append.mp ht with ht | ht
          · exact hall t (hcs.1.subset (by rw [hs]; exact List.mem_append.mpr (Or.inl ht)))
          · have hteq : t = HTree.node (storedW n1 + storedW n2) n1 n2 := by
              simpa using ht
            have hn1 : n1 ∈ L := hcs.1.subset (by rw [hs]; simp)
            have hn2 : n2 ∈ L := hcs.1.subset (by rw [hs]; simp)
            rw [hteq]
            exact ⟨rfl, hall n1 hn1, hall n2 hn2⟩

theorem leafMS_node (w : Nat) (l r : HTree) :
    leafMS (HTree.node w l r) = leafMS l + leafMS r := by
  simp only [leafMS, leafWeights_node]
  exact (Multiset.coe_add _ _).symm

theorem leafMS_buildRes : ∀ (n : Nat) (L : List HTree), L.length = n + 1 →
    leafMS (buildRes L) = (L.map leafMS).sum := by
  intro n
  induction n using Nat.strong_induction_on with
  | _ n ih =>
      intro L hlen
      cases n with
      | zero =>
          match L, hlen with
          | [t], _ => simp [buildRes, buildLoop]
      | succ m =>
          have hcs := csort_spec L
          have hcl : (csort L).length = L.length := hcs.1.length_eq
          obtain ⟨n1, n2, rest, hs, hm⟩ := mergeLastTwo_structure (csort L) (by omega)
          obtain ⟨hbr, hlen'⟩ := buildRes_step L m hlen
          rw [hbr, ih m (by omega) _ (by omega)]
          have h1 : (L.map leafMS).sum = ((csort L).map leafMS).sum :=
            (hcs.1.map leafMS).sum_eq.symm
          rw [h1, hm, hs]
          simp [leafMS_node]
          abel

theorem leaves_msum (L : List HTree) (h : ∀ t ∈ L, ∃ s w, t = HTree.leaf s w ∧ 0 < w) :
    (L.map leafMS).sum = ((L.map storedW : List Nat) : Multiset Nat) := by
  induction L with
  | nil => simp
  | cons t ts ih =>
      obtain ⟨s, w, rfl, _⟩ := h t (by simp)
      have hih := ih fun x hx => h x (List.mem_cons_of_mem _ hx)
      simp only [List.map_cons, List.sum_cons, hih]
      show (↑[w] : Multiset Nat) + _ = _
      rw [← Multiset.cons_coe]
      simp [Multiset.singleton_add]
      rfl

theorem sumSCost_leaves (L : List HTree)
    (h : ∀ t ∈ L, ∃ s w, t = HTree.leaf s w ∧ 0 < w) : sumSCost L = 0 := by
  apply List.sum_eq_zero
  intro x hx
  obtain ⟨t, ht, rfl⟩ := List.mem_map.mp hx
  obtain ⟨s, w, rfl, _⟩ := h t ht
  rfl

theorem wcl_gen (t : HTree) : ∀ d c, wcl (huffman_generate_codes t d c)
    = vcost (dl t) + d * (leafWeights t).sum := by
  induction t with
  | leaf s w =>
      intro d c
      simp [wcl, leafData, huffman_generate_codes, dl, vcost, leafWeights]
      ring
  | node w l r ihl ihr =>
      intro d c
      have hsplit : wcl (huffman_generate_codes (HTree.node w l r) d c)
          = wcl (huffman_generate_codes l (d + 1) (2 * c))
            + wcl (huffman_generate_codes r (d + 1) (2 * c + 1)) := by
        simp [wcl, huffman_generate_codes, leafData]
      rw [hsplit, ihl, ihr]
      show _ = vcost ((dl l ++ dl r).map fun p => (p.1, p.2 + 1)) + _
      rw [vcost_map_succ, vcost_append, leafWeights_node, List.sum_append]
      have hmap : ((dl l ++ dl r).map Prod.fst).sum
          = (leafWeights l).sum + (leafWeights r).sum := by
        simp [leafWeights]
      rw [hmap]
      have h1 : (d + 1) * (leafWeights l).sum
          = d * (leafWeights l).sum + (leafWeights l).sum := by ring
      have h2 : (d + 1) * (leafWeights r).sum
          = d * (leafWeights r).sum + (leafWeights r).sum := by ring
      have h3 : d * ((leafWeights l).sum + (leafWeights r).sum)
          = d * (leafWeights l).sum + d * (leafWeights r).sum := by ring
      omega

/-- C5: for every nonempty list of positive-weight leaves, the tree built
by huffman_build_tree is weight-optimal: its leaf-weight multiset is that
of the input, its total weighted code length (sum over leaves of weight
times code length) equals its weighted depth cost, and that cost is
minimal among all binary trees carrying the same leaf-weight multiset. -/
theorem huffman_optimality (L : List HTree) (root : CTree)
    (hpos : ∀ t ∈ L, ∃ s w, t = HTree.leaf s w ∧ 0 < w)
    (hb : huffman_build_tree L = some root) :
    (leafWeights (buildRes L)).Perm (L.map storedW) ∧
    wcl root = vcost (dl (buildRes L)) ∧
    ∀ T : HTree, (leafWeights T).Perm (L.map storedW) →
      vcost (dl (buildRes L)) ≤ vcost (dl T) := by
  cases L with
  | nil => simp [huffman_build_tree] at hb
  | cons x xs =>
      have hroot : root = huffman_generate_codes (buildRes (x :: xs)) 0 0 := by
        simpa [huffman_build_tree] using hb.symm
      have hlen : (x :: xs).length = ((x :: xs).length - 1) + 1 := by simp
      refine ⟨?_, ?_, ?_⟩
      · have h1 := leafMS_buildRes ((x :: xs).length - 1) (x :: xs) hlen
        rw [leaves_msum (x :: xs) hpos] at h1
        have h2 : (leafWeights (buildRes (x :: xs)) : Multiset Nat)
            = ((x :: xs).map storedW : List Nat) := h1
        exact Multiset.coe_eq_coe.mp h2
      · rw [hroot, wcl_gen]
        simp
      · intro T hT
        have hwfw : wfw (buildRes (x :: xs)) := by
          apply wfw_buildRes ((x :: xs).length - 1) (x :: xs) hlen
          intro t ht
          obtain ⟨s, w, rfl, _⟩ := hpos t ht
          trivial
        have hlb := lb ((x :: xs).length - 1) (x :: xs) (dl T) hlen
          (by exact hT) (dl_kraft_maxD T)
        rw [sumSCost_leaves (x :: xs) hpos, vcost_dl _ hwfw] at *
        omega

theorem huffman_optimality_witness :
    huffman_build_tree [HTree.leaf 5 1, HTree.leaf 6 3] =
      some (CTree.node 4 0 0 (CTree.leaf 5 1 1 0) (CTree.leaf 6 3 1 1)) ∧
    ((leafWeights (buildRes [HTree.leaf 5 1, HTree.leaf 6 3])).Perm
        ([HTree.leaf 5 1, HTree.leaf 6 3].map storedW) ∧
      wcl (CTree.node 4 0 0 (CTree.leaf 5 1 1 0) (CTree.leaf 6 3 1 1)) =
        vcost (dl (buildRes [HTree.leaf 5 1, HTree.leaf 6 3])) ∧
      ∀ T : HTree, (leafWeights T).Perm ([HTree.leaf 5 1, HTree.leaf 6 3].map storedW) →
        vcost (dl (buildRes [HTree.leaf 5 1, HTree.leaf 6 3])) ≤ vcost (dl T)) := by
  refine ⟨by decide, huffman_optimality _ _ ?_ (by decide)⟩
  intro t ht
  simp only [List.mem_cons, List.not_mem_nil, or_false] at ht
  rcases ht with rfl | rfl
  · exact ⟨5, 1, rfl, by omega⟩
  · exact ⟨6, 3, rfl, by omega⟩
